import Mathlib

/-!
# PrecisionVoice alignment and orchestration layer: a shallow embedding

This file embeds the alignment service (`src/app/services/alignment.py`)
and the error-flow of the pipeline orchestrator
(`src/app/services/orchestrator.py`) of the PrecisionVoice repository in
Lean 4, and proves the testable properties of the design document about
them.

Times (Python `float`) are embedded as exact rationals `ℚ`; Python lists
as `List`; `dataclass`es as structures.  Fallible upstream model calls are
embedded as `Except` values.
-/

attribute [local semireducible] Rat.add Rat.sub Rat.mul Rat.inv Rat.ofScientific

/-- Embeds `WordTimestamp` (src/app/services/transcription.py): a single
word with precise timestamps. -/
structure WordTimestamp where
  word : String
  start : ℚ
  «end» : ℚ
deriving DecidableEq, Repr

/-- Embeds `SpeakerSegment` (src/app/services/diarization.py): a segment of
audio attributed to a specific speaker. -/
structure SpeakerSegment where
  start : ℚ
  «end» : ℚ
  speaker : String
deriving DecidableEq, Repr

/-- Embeds `WordWithSpeaker` (src/app/services/alignment.py): a word with an
assigned speaker. -/
structure WordWithSpeaker where
  word : String
  start : ℚ
  «end» : ℚ
  speaker : String
deriving DecidableEq, Repr

/-- Embeds `TranscriptSegment` (src/app/schemas/models.py): a transcript
segment with speaker, timing and text. -/
structure TranscriptSegment where
  start : ℚ
  «end» : ℚ
  speaker : String
  text : String
deriving DecidableEq, Repr

/-- Embeds Python `" ".join(ws)`: words joined by a single space. -/
def joinSpace : List String → String
  | [] => ""
  | [w] => w
  | w :: ws => w ++ " " ++ joinSpace ws

/-- Embeds `AlignmentService.PAUSE_THRESHOLD = 1.0`. -/
def PAUSE_THRESHOLD : ℚ := 1

/-- Embeds `AlignmentService.get_word_center`. -/
def get_word_center (w : WordTimestamp) : ℚ :=
  (w.start + w.«end») / 2

/-- Embeds `AlignmentService.find_speaker_at_time`: first segment in list
order whose closed interval contains the time, else `none`. -/
def find_speaker_at_time (time : ℚ) : List SpeakerSegment → Option String
  | [] => none
  | seg :: rest =>
    if seg.start ≤ time ∧ time ≤ seg.«end» then some seg.speaker
    else find_speaker_at_time time rest

/-- The per-segment distance `min(|t - start|, |t - end|)` computed inside
`AlignmentService.find_closest_speaker`. -/
def segDist (time : ℚ) (seg : SpeakerSegment) : ℚ :=
  min |time - seg.start| |time - seg.«end»|

/-- `d < m` where `m : Option ℚ` embeds the running `min_distance`
(`none` plays the role of the initial `float('inf')`). -/
def ltInf (d : ℚ) : Option ℚ → Bool
  | none => true
  | some m => decide (d < m)

/-- The accumulator loop of `AlignmentService.find_closest_speaker`:
`minDist`/`closest` embed the `min_distance`/`closest_speaker` variables,
updated exactly when the strict comparison `min_seg_dist < min_distance`
holds. -/
def closestLoop (time : ℚ) : List SpeakerSegment → Option ℚ → String → String
  | [], _, closest => closest
  | seg :: rest, minDist, closest =>
    let d := segDist time seg
    if ltInf d minDist then closestLoop time rest (some d) seg.speaker
    else closestLoop time rest minDist closest

/-- Embeds `AlignmentService.find_closest_speaker`. -/
def find_closest_speaker (time : ℚ) (segs : List SpeakerSegment) : String :=
  if segs.isEmpty then "Unknown"
  else closestLoop time segs none "Unknown"

/-- Embeds `AlignmentService.assign_speakers_to_words`. -/
def assign_speakers_to_words (words : List WordTimestamp)
    (segs : List SpeakerSegment) : List WordWithSpeaker :=
  if segs.isEmpty then
    words.map fun w => ⟨w.word, w.start, w.«end», "Speaker 1"⟩
  else
    words.map fun w =>
      let center := get_word_center w
      let speaker :=
        match find_speaker_at_time center segs with
        | some s => s
        | none => find_closest_speaker center segs
      ⟨w.word, w.start, w.«end», speaker⟩

/-- The main loop of `AlignmentService.reconstruct_segments`.  `prev` is the
previously processed word; `curSpeaker`, `curStart`, `curEnd`, `curWords`
embed the `current_*` variables.  The final `if` embeds the
`if current_words:` flush guard. -/
def reconstructLoop (prev : WordWithSpeaker) (rest : List WordWithSpeaker)
    (curSpeaker : String) (curStart curEnd : ℚ) (curWords : List String) :
    List TranscriptSegment :=
  match rest with
  | [] =>
    if curWords.isEmpty then []
    else [⟨curStart, curEnd, curSpeaker, joinSpace curWords⟩]
  | w :: rest2 =>
    let pause := w.start - prev.«end»
    let speaker_changed := w.speaker ≠ curSpeaker
    let significant_pause := pause > PAUSE_THRESHOLD
    if speaker_changed ∨ significant_pause then
      ⟨curStart, curEnd, curSpeaker, joinSpace curWords⟩ ::
        reconstructLoop w rest2 w.speaker w.start w.«end» [w.word]
    else
      reconstructLoop w rest2 curSpeaker curStart w.«end»
        (curWords ++ [w.word])

/-- Embeds `AlignmentService.reconstruct_segments`. -/
def reconstruct_segments : List WordWithSpeaker → List TranscriptSegment
  | [] => []
  | w :: rest => reconstructLoop w rest w.speaker w.start w.«end» [w.word]

/-- Embeds `AlignmentService.align_precision`. -/
def align_precision (words : List WordTimestamp)
    (segs : List SpeakerSegment) : List TranscriptSegment :=
  reconstruct_segments (assign_speakers_to_words words segs)

/-- Embeds Python `int(q)`: truncation toward zero. -/
def pyInt (q : ℚ) : ℤ :=
  if 0 ≤ q then ⌊q⌋ else ⌈q⌉

/-- Embeds Python `a % b` for a positive modulus `b`: the representative of
`a` modulo `b` lying in `[0, b)`. -/
def pyMod (a b : ℚ) : ℚ :=
  a - b * ⌊a / b⌋

/-- Embeds the Python format spec `02d`: decimal, left-padded with zeros to
width 2. -/
def pad2 (n : ℤ) : String :=
  if 0 ≤ n ∧ n < 10 then "0" ++ toString n else toString n

/-- Embeds the Python format spec `03d`: decimal, left-padded with zeros to
width 3. -/
def pad3 (n : ℤ) : String :=
  if 0 ≤ n ∧ n < 10 then "00" ++ toString n
  else if 0 ≤ n ∧ n < 100 then "0" ++ toString n
  else toString n

/-- Embeds `AlignmentService.format_timestamp_txt`
(`int(seconds // 3600)`, `int((seconds % 3600) // 60)`, `int(seconds % 60)`;
Python `//` is floor division). -/
def format_timestamp_txt (seconds : ℚ) : String :=
  let hours := ⌊seconds / 3600⌋
  let minutes := ⌊pyMod seconds 3600 / 60⌋
  let secs := pyInt (pyMod seconds 60)
  pad2 hours ++ ":" ++ pad2 minutes ++ ":" ++ pad2 secs

/-- Embeds `AlignmentService.format_timestamp_srt`: the same decomposition
plus `int((seconds % 1) * 1000)` milliseconds. -/
def format_timestamp_srt (seconds : ℚ) : String :=
  let hours := ⌊seconds / 3600⌋
  let minutes := ⌊pyMod seconds 3600 / 60⌋
  let secs := pyInt (pyMod seconds 60)
  let millis := pyInt (pyMod seconds 1 * 1000)
  pad2 hours ++ ":" ++ pad2 minutes ++ ":" ++ pad2 secs ++ "," ++ pad3 millis

/-- One line of the TXT artifact, as built in `AlignmentService.generate_txt`:
`[start - end] speaker: text`. -/
def txt_line (seg : TranscriptSegment) : String :=
  "[" ++ format_timestamp_txt seg.start ++ " - " ++
    format_timestamp_txt seg.«end» ++ "] " ++ seg.speaker ++ ": " ++ seg.text

/-- The `lines` list built by `AlignmentService.generate_txt`: one line per
segment, in segment order. -/
def generate_txt_lines (segs : List TranscriptSegment) : List String :=
  segs.map txt_line

/-- The text written by `AlignmentService.generate_txt`:
`"\n".join(lines)`. -/
def generate_txt_text (segs : List TranscriptSegment) : String :=
  String.intercalate "\n" (generate_txt_lines segs)

/-- The four lines appended per segment in `AlignmentService.generate_srt`:
ordinal, timing line, content line, blank separator. -/
def srt_entry (i : ℕ) (seg : TranscriptSegment) : List String :=
  [toString i,
   format_timestamp_srt seg.start ++ " --> " ++ format_timestamp_srt seg.«end»,
   "[" ++ seg.speaker ++ "] " ++ seg.text,
   ""]

/-- The `for i, seg in enumerate(segments, 1)` loop of
`AlignmentService.generate_srt`, with `i` the running 1-based ordinal. -/
def srtLoop (i : ℕ) : List TranscriptSegment → List String
  | [] => []
  | seg :: rest => srt_entry i seg ++ srtLoop (i + 1) rest

/-- The `lines` list built by `AlignmentService.generate_srt`. -/
def generate_srt_lines (segs : List TranscriptSegment) : List String :=
  srtLoop 1 segs

/-- The text written by `AlignmentService.generate_srt`:
`"\n".join(lines)`. -/
def generate_srt_text (segs : List TranscriptSegment) : String :=
  String.intercalate "\n" (generate_srt_lines segs)

/-- Outcome of one orchestrated request, as observed through the SSE stream
of `PipelineOrchestrator.process_audio_stream`: either the final
`completed` event carrying the aligned segments, or the `error` event after
which the generator returns with no partial output. -/
inductive PipelineOutcome where
  | completed (segments : List TranscriptSegment)
  | aborted
deriving DecidableEq, Repr

/-- Embeds the `DualInference` error flow of
`PipelineOrchestrator.process_audio_stream`: the two upstream tasks are
joined by `asyncio.gather(..., return_exceptions=False)` inside a
`try`/`except Exception` that yields an error status and returns, so any
exception raised by either task aborts the request; only when both tasks
return normally does the pipeline run `AlignmentService.align_precision`
on their results. -/
def process_audio (tr : Except String (List WordTimestamp))
    (di : Except String (List SpeakerSegment)) : PipelineOutcome :=
  match tr, di with
  | Except.ok words, Except.ok segs =>
    PipelineOutcome.completed (align_precision words segs)
  | _, _ => PipelineOutcome.aborted

/-- Spec-side characterisation for the segmentation boundary rule: the
break condition between two adjacent words (speaker change, or pause
strictly above the threshold). -/
def breakBetween (a b : WordWithSpeaker) : Bool :=
  decide (b.speaker ≠ a.speaker) || decide (b.start - a.«end» > PAUSE_THRESHOLD)

/-- Spec-side characterisation: the number of adjacent word pairs at which
the break condition holds. -/
def countBreaks : List WordWithSpeaker → ℕ
  | [] => 0
  | [_] => 0
  | a :: b :: rest =>
    (if breakBetween a b then 1 else 0) + countBreaks (b :: rest)

/-- The value the program actually stores for the Python float literal
`3661.234`: the nearest IEEE-754 double, whose exact rational value is
`8051138710017671 / 2 ^ 41`, slightly below the decimal 3661.234.  Concrete
examples about float inputs are evaluated at the stored double. -/
def double_3661_234 : ℚ := 8051138710017671 / 2 ^ 41

lemma joinSpace_cons (a : String) (l : List String) (h : l ≠ []) :
    joinSpace (a :: l) = a ++ " " ++ joinSpace l := by
  cases l with
  | nil => exact absurd rfl h
  | cons b t => rfl

lemma joinSpace_append (l₁ l₂ : List String) (h₁ : l₁ ≠ []) (h₂ : l₂ ≠ []) :
    joinSpace (l₁ ++ l₂) = joinSpace l₁ ++ " " ++ joinSpace l₂ := by
  induction l₁ with
  | nil => exact absurd rfl h₁
  | cons a t ih =>
    cases t with
    | nil =>
      rw [List.singleton_append, joinSpace_cons a l₂ h₂]
      rfl
    | cons b t2 =>
      rw [List.cons_append, joinSpace_cons a ((b :: t2) ++ l₂) (by simp),
        ih (by simp), joinSpace_cons a (b :: t2) (by simp)]
      simp [String.append_assoc]

lemma reconstructLoop_ne_nil (rest : List WordWithSpeaker) :
    ∀ prev sp st en curWords, curWords ≠ [] →
      reconstructLoop prev rest sp st en curWords ≠ [] := by
  induction rest with
  | nil =>
    intro prev sp st en curWords h
    simp [reconstructLoop, List.isEmpty_iff, h]
  | cons w rest2 ih =>
    intro prev sp st en curWords h
    simp only [reconstructLoop]
    split
    · simp
    · exact ih w sp st w.«end» (curWords ++ [w.word]) (by simp)

lemma reconstructLoop_texts (rest : List WordWithSpeaker) :
    ∀ prev sp st en curWords, curWords ≠ [] →
      joinSpace ((reconstructLoop prev rest sp st en curWords).map
          TranscriptSegment.text) =
        joinSpace (curWords ++ rest.map WordWithSpeaker.word) := by
  induction rest with
  | nil =>
    intro prev sp st en curWords h
    simp only [reconstructLoop, List.isEmpty_iff, h, if_false]
    cases curWords with
    | nil => exact absurd rfl h
    | cons a t => simp [joinSpace]
  | cons w rest2 ih =>
    intro prev sp st en curWords h
    simp only [reconstructLoop]
    split
    · have hne : (reconstructLoop w rest2 w.speaker w.start w.«end»
          [w.word]).map TranscriptSegment.text ≠ [] := by
        simpa using reconstructLoop_ne_nil rest2 w w.speaker w.start w.«end»
          [w.word] (by simp)
      rw [List.map_cons, joinSpace_cons _ _ hne,
        ih w w.speaker w.start w.«end» [w.word] (by simp), List.map_cons,
        joinSpace_append curWords (w.word :: rest2.map WordWithSpeaker.word) h
          (by simp)]
      rfl
    · rw [ih w sp st w.«end» (curWords ++ [w.word]) (by simp),
        List.append_assoc, List.singleton_append, List.map_cons]

lemma reconstructLoop_length (rest : List WordWithSpeaker) :
    ∀ prev st en curWords, curWords ≠ [] →
      (reconstructLoop prev rest prev.speaker st en curWords).length =
        1 + countBreaks (prev :: rest) := by
  induction rest with
  | nil =>
    intro prev st en curWords h
    simp [reconstructLoop, List.isEmpty_iff, h, countBreaks]
  | cons w rest2 ih =>
    intro prev st en curWords h
    simp only [reconstructLoop]
    split
    · next hbr =>
      have hb : breakBetween prev w = true := by
        simp only [breakBetween, Bool.or_eq_true, decide_eq_true_eq]
        exact hbr
      rw [List.length_cons, ih w w.start w.«end» [w.word] (by simp)]
      simp [countBreaks, hb]
      omega
    · next hbr =>
      push_neg at hbr
      have hb : breakBetween prev w = false := by
        simp only [breakBetween, Bool.or_eq_false_iff, decide_eq_false_iff_not,
          not_not, not_lt]
        exact ⟨hbr.1, hbr.2⟩
      rw [← hbr.1, ih w st w.«end» (curWords ++ [w.word]) (by simp)]
      simp [countBreaks, hb]

/-- **C2.** For every list of words with speakers, space-joining the text
fields of `reconstruct_segments`' output in segment order equals the
space-joined original word sequence; the open segment is always flushed at
end of input, so every non-empty input yields at least one segment, and the
empty input yields the empty segment list. -/
theorem reconstruct_preserves_words (ws : List WordWithSpeaker) :
    joinSpace ((reconstruct_segments ws).map TranscriptSegment.text) =
      joinSpace (ws.map WordWithSpeaker.word) ∧
    (ws ≠ [] → reconstruct_segments ws ≠ []) ∧
    reconstruct_segments ([] : List WordWithSpeaker) = [] := by
  refine ⟨?_, ?_, rfl⟩
  · cases ws with
    | nil => rfl
    | cons w rest =>
      have h := reconstructLoop_texts rest w w.speaker w.start w.«end»
        [w.word] (by simp)
      simpa [reconstruct_segments] using h
  · intro h
    cases ws with
    | nil => exact absurd rfl h
    | cons w rest =>
      exact reconstructLoop_ne_nil rest w w.speaker w.start w.«end» [w.word]
        (by simp)

/-- Witness for C2 at a concrete single-word input. -/
theorem reconstruct_preserves_words_witness :
    joinSpace ((reconstruct_segments
        [(⟨"a", 0, 1, "S1"⟩ : WordWithSpeaker)]).map TranscriptSegment.text) =
      joinSpace ([(⟨"a", 0, 1, "S1"⟩ : WordWithSpeaker)].map
        WordWithSpeaker.word) ∧
    reconstruct_segments [(⟨"a", 0, 1, "S1"⟩ : WordWithSpeaker)] ≠ [] :=
  ⟨(reconstruct_preserves_words [⟨"a", 0, 1, "S1"⟩]).1,
   (reconstruct_preserves_words [⟨"a", 0, 1, "S1"⟩]).2.1 (by simp)⟩

/-- **C3.** A new segment starts exactly when the speaker changes or the
pause strictly exceeds the 1.0-second `PAUSE_THRESHOLD`: the number of
output segments is one plus the number of adjacent break pairs; two
consecutive same-speaker words with pause exactly 1 stay in one segment,
and with pause strictly greater than 1 they are split into two. -/
theorem reconstruct_split_rule :
    PAUSE_THRESHOLD = 1 ∧
    (∀ ws : List WordWithSpeaker, ws ≠ [] →
      (reconstruct_segments ws).length = 1 + countBreaks ws) ∧
    (∀ w1 w2 : WordWithSpeaker, w1.speaker = w2.speaker →
      (w2.start - w1.«end» = 1 →
        (reconstruct_segments [w1, w2]).length = 1) ∧
      (w2.start - w1.«end» > 1 →
        (reconstruct_segments [w1, w2]).length = 2)) := by
  have hlen : ∀ ws : List WordWithSpeaker, ws ≠ [] →
      (reconstruct_segments ws).length = 1 + countBreaks ws := by
    intro ws h
    cases ws with
    | nil => exact absurd rfl h
    | cons w rest =>
      exact reconstructLoop_length rest w w.start w.«end» [w.word] (by simp)
  refine ⟨rfl, hlen, ?_⟩
  intro w1 w2 hsp
  constructor
  · intro hp
    rw [hlen [w1, w2] (by simp)]
    have hb : breakBetween w1 w2 = false := by
      simp only [breakBetween, Bool.or_eq_false_iff, decide_eq_false_iff_not,
        not_not, not_lt]
      exact ⟨hsp.symm, le_of_eq (by rw [hp]; rfl)⟩
    simp [countBreaks, hb]
  · intro hp
    rw [hlen [w1, w2] (by simp)]
    have hb : breakBetween w1 w2 = true := by
      simp only [breakBetween, Bool.or_eq_true, decide_eq_true_eq]
      exact Or.inr hp
    simp [countBreaks, hb]

/-- Witness for C3 at the spec's boundary examples: same speaker, pause
exactly 1.0 keeps one segment; pause 1.01 splits into two. -/
theorem reconstruct_split_rule_witness :
    (reconstruct_segments
      [(⟨"a", 0, 1, "S"⟩ : WordWithSpeaker), ⟨"b", 2, 5/2, "S"⟩]).length = 1 ∧
    (reconstruct_segments
      [(⟨"a", 0, 1, "S"⟩ : WordWithSpeaker),
       ⟨"b", 201/100, 5/2, "S"⟩]).length = 2 :=
  ⟨(reconstruct_split_rule.2.2 ⟨"a", 0, 1, "S"⟩ ⟨"b", 2, 5/2, "S"⟩ rfl).1
(by decide),
   (reconstruct_split_rule.2.2 ⟨"a", 0, 1, "S"⟩ ⟨"b", 201/100, 5/2, "S"⟩
rfl).2 (by decide)⟩

/-- **C6.** With an empty segment list, `assign_speakers_to_words` returns a
list of the same length and order as the input in which every word keeps its
word, start and end fields and is assigned exactly the fixed fallback label
"Speaker 1". -/
theorem assign_empty_segments_fallback (words : List WordTimestamp) :
    (assign_speakers_to_words words []).length = words.length ∧
    ∀ i, i < words.length →
      (assign_speakers_to_words words [])[i]? =
        (words[i]?).map fun w =>
          (⟨w.word, w.start, w.«end», "Speaker 1"⟩ : WordWithSpeaker) := by
  constructor
  · simp [assign_speakers_to_words]
  · intro i hi
    simp [assign_speakers_to_words]

/-- Witness for C6 at the spec's example input. -/
theorem assign_empty_segments_fallback_witness :
    (assign_speakers_to_words [(⟨"hi", 0, 1⟩ : WordTimestamp)] []).length = 1 ∧
    (assign_speakers_to_words [(⟨"hi", 0, 1⟩ : WordTimestamp)] [])[0]? =
      some ⟨"hi", 0, 1, "Speaker 1"⟩ :=
  ⟨(assign_empty_segments_fallback [⟨"hi", 0, 1⟩]).1,
   ((assign_empty_segments_fallback [⟨"hi", 0, 1⟩]).2 0 (by simp)).trans
     (by decide)⟩

lemma find_speaker_eq_findFirst (t : ℚ) (segs : List SpeakerSegment) :
    find_speaker_at_time t segs =
      (segs.find? fun s => decide (s.start ≤ t ∧ t ≤ s.«end»)).map
        SpeakerSegment.speaker := by
  induction segs with
  | nil => rfl
  | cons seg rest ih =>
    by_cases h : seg.start ≤ t ∧ t ≤ seg.«end»
    · simp [find_speaker_at_time, List.find?_cons_of_pos, h]
    · rw [find_speaker_at_time, if_neg h, ih,
        List.find?_cons_of_neg _ (by simpa using h)]

/-- **C4.** The containment lookup scans the segments in their given list
order and returns the speaker of the first segment whose closed interval
`[start, end]` contains the query time, inclusive on both ends (for
overlapping segments the first in list order wins); a word whose center is
contained in some segment is assigned that first segment's speaker. -/
theorem containment_first_in_order :
    (∀ (t : ℚ) (segs : List SpeakerSegment),
      find_speaker_at_time t segs =
        (segs.find? fun s => decide (s.start ≤ t ∧ t ≤ s.«end»)).map
          SpeakerSegment.speaker) ∧
    (∀ (w : WordTimestamp) (segs : List SpeakerSegment)
        (seg : SpeakerSegment),
      (segs.find? fun s => decide (s.start ≤ get_word_center w ∧
        get_word_center w ≤ s.«end»)) = some seg →
      assign_speakers_to_words [w] segs =
        [⟨w.word, w.start, w.«end», seg.speaker⟩]) := by
  refine ⟨find_speaker_eq_findFirst, ?_⟩
  intro w segs seg hf
  have hne : ¬segs.isEmpty := by
    cases segs with
    | nil => simp [List.find?] at hf
    | cons a l => simp
  simp only [Bool.decide_and] at hf
  simp [assign_speakers_to_words, hne, find_speaker_eq_findFirst, hf]

/-- Witness for C4 at the spec's overlapping-segments example: segments
`[0,5]→A, [2,6]→B`, word centered at 3 gets speaker A. -/
theorem containment_first_in_order_witness :
    find_speaker_at_time 3 [(⟨0, 5, "A"⟩ : SpeakerSegment), ⟨2, 6, "B"⟩] =
      some "A" ∧
    assign_speakers_to_words [(⟨"w", 2, 4⟩ : WordTimestamp)]
        [(⟨0, 5, "A"⟩ : SpeakerSegment), ⟨2, 6, "B"⟩] =
      [⟨"w", 2, 4, "A"⟩] :=
  ⟨(containment_first_in_order.1 3 [⟨0, 5, "A"⟩, ⟨2, 6, "B"⟩]).trans
     (by decide),
   containment_first_in_order.2 ⟨"w", 2, 4⟩ [⟨0, 5, "A"⟩, ⟨2, 6, "B"⟩]
     ⟨0, 5, "A"⟩ (by decide)⟩

/-- **C1 (counterexample).** With `asyncio.gather(..., return_exceptions=False)`
wrapped in the `try`/`except` of `process_audio_stream`, a diarization
failure aborts the request even though transcription succeeded: the outcome
is the error exit, not the degraded single-speaker completion the claim
describes. -/
theorem orchestrator_diarization_failure_counterexample :
    process_audio (Except.ok [(⟨"hi", 0, 1⟩ : WordTimestamp)])
        (Except.error "diarization failed") = PipelineOutcome.aborted ∧
    process_audio (Except.ok [(⟨"hi", 0, 1⟩ : WordTimestamp)])
        (Except.error "diarization failed") ≠
      PipelineOutcome.completed [⟨0, 1, "Speaker 1", "hi"⟩] :=
  ⟨rfl, by decide⟩

/-- **C1 (amended).** In the DualInference stage, a failure of either the
transcription task or the diarization task aborts the request with no
partial output; the single-speaker degraded mode is triggered only when
diarization succeeds with an empty segment list. -/
theorem orchestrator_failure_policy :
    (∀ (tr : Except String (List WordTimestamp))
        (di : Except String (List SpeakerSegment)) (e : String),
      (di = Except.error e → process_audio tr di = PipelineOutcome.aborted) ∧
      (tr = Except.error e → process_audio tr di = PipelineOutcome.aborted)) ∧
    (∀ words : List WordTimestamp,
      process_audio (Except.ok words) (Except.ok []) =
        PipelineOutcome.completed
          (reconstruct_segments (words.map fun w =>
            ⟨w.word, w.start, w.«end», "Speaker 1"⟩))) := by
  constructor
  · intro tr di e
    constructor
    · intro h
      subst h
      cases tr <;> rfl
    · intro h
      subst h
      cases di <;> rfl
  · intro words
    simp [process_audio, align_precision, assign_speakers_to_words]

/-- Witness for the amended C1 at concrete task outcomes. -/
theorem orchestrator_failure_policy_witness :
    process_audio (Except.ok [(⟨"hi", 0, 1⟩ : WordTimestamp)])
        (Except.error "boom") = PipelineOutcome.aborted ∧
    process_audio (Except.error "asr failed")
        (Except.ok [(⟨0, 1, "Speaker 1"⟩ : SpeakerSegment)]) =
      PipelineOutcome.aborted ∧
    process_audio (Except.ok [(⟨"hi", 0, 1⟩ : WordTimestamp)])
        (Except.ok []) = PipelineOutcome.completed [⟨0, 1, "Speaker 1", "hi"⟩] :=
  ⟨(orchestrator_failure_policy.1 (Except.ok [⟨"hi", 0, 1⟩])
      (Except.error "boom") "boom").1 rfl,
   (orchestrator_failure_policy.1 (Except.error "asr failed")
      (Except.ok [⟨0, 1, "Speaker 1"⟩]) "asr failed").2 rfl,
   (orchestrator_failure_policy.2 [⟨"hi", 0, 1⟩]).trans (by decide)⟩

lemma closestLoop_some_spec (t : ℚ) :
    ∀ (segs : List SpeakerSegment) (m : ℚ) (c : String),
      ((∀ s ∈ segs, m ≤ segDist t s) ∧ closestLoop t segs (some m) c = c) ∨
      (∃ i, ∃ h : i < segs.length,
        closestLoop t segs (some m) c = (segs.get ⟨i, h⟩).speaker ∧
        segDist t (segs.get ⟨i, h⟩) < m ∧
        (∀ s ∈ segs, segDist t (segs.get ⟨i, h⟩) ≤ segDist t s) ∧
        (∀ s ∈ segs.take i, segDist t (segs.get ⟨i, h⟩) < segDist t s)) := by
  intro segs
  induction segs with
  | nil =>
    intro m c
    exact Or.inl ⟨by simp, rfl⟩
  | cons seg rest ih =>
    intro m c
    by_cases hd : segDist t seg < m
    · have hstep : closestLoop t (seg :: rest) (some m) c =
          closestLoop t rest (some (segDist t seg)) seg.speaker := by
        simp [closestLoop, ltInf, hd]
      rcases ih (segDist t seg) seg.speaker with ⟨hall, heq⟩ |
        ⟨i, h, heq, hlt, hmin, hstrict⟩
      · refine Or.inr ⟨0, by simp, ?_, ?_, ?_, ?_⟩
        · rw [hstep, heq]
          rfl
        · exact hd
        · intro s hs
          rcases List.mem_cons.1 hs with rfl | hs
          · exact le_refl _
          · exact hall s hs
        · simp
      · refine Or.inr ⟨i + 1, by simpa using Nat.succ_lt_succ h, ?_, ?_, ?_, ?_⟩
        · rw [hstep, heq]
          rfl
        · exact lt_trans hlt hd
        · intro s hs
          rcases List.mem_cons.1 hs with rfl | hs
          · exact le_of_lt hlt
          · exact hmin s hs
        · intro s hs
          rw [List.take_succ_cons] at hs
          rcases List.mem_cons.1 hs with rfl | hs
          · exact hlt
          · exact hstrict s hs
    · have hstep : closestLoop t (seg :: rest) (some m) c =
          closestLoop t rest (some m) c := by
        simp [closestLoop, ltInf, hd]
      rcases ih m c with ⟨hall, heq⟩ | ⟨i, h, heq, hlt, hmin, hstrict⟩
      · refine Or.inl ⟨?_, by rw [hstep, heq]⟩
        intro s hs
        rcases List.mem_cons.1 hs with rfl | hs
        · exact not_lt.1 hd
        · exact hall s hs
      · refine Or.inr ⟨i + 1, by simpa using Nat.succ_lt_succ h, ?_, ?_, ?_, ?_⟩
        · rw [hstep, heq]
          rfl
        · exact hlt
        · intro s hs
          rcases List.mem_cons.1 hs with rfl | hs
          · exact le_of_lt (lt_of_lt_of_le hlt (not_lt.1 hd))
          · exact hmin s hs
        · intro s hs
          rw [List.take_succ_cons] at hs
          rcases List.mem_cons.1 hs with rfl | hs
          · exact lt_of_lt_of_le hlt (not_lt.1 hd)
          · exact hstrict s hs

/-- **C5.** When the query time lies in no segment, the fallback
`find_closest_speaker` returns the speaker of the segment minimising
`min(|t-start|, |t-end|)`, ties broken by first-in-list-order (the chosen
index beats every segment weakly and every earlier segment strictly); a
word whose center is contained in no segment is assigned exactly this
fallback speaker. -/
theorem nearest_boundary_fallback :
    (∀ (t : ℚ) (segs : List SpeakerSegment), segs ≠ [] →
      ∃ i, ∃ h : i < segs.length,
        find_closest_speaker t segs = (segs.get ⟨i, h⟩).speaker ∧
        (∀ s ∈ segs, segDist t (segs.get ⟨i, h⟩) ≤ segDist t s) ∧
        (∀ s ∈ segs.take i, segDist t (segs.get ⟨i, h⟩) < segDist t s)) ∧
    (∀ (w : WordTimestamp) (segs : List SpeakerSegment), segs ≠ [] →
      find_speaker_at_time (get_word_center w) segs = none →
      assign_speakers_to_words [w] segs =
        [⟨w.word, w.start, w.«end»,
          find_closest_speaker (get_word_center w) segs⟩]) := by
  constructor
  · intro t segs hne
    cases segs with
    | nil => exact absurd rfl hne
    | cons seg rest =>
      have hstep : find_closest_speaker t (seg :: rest) =
          closestLoop t rest (some (segDist t seg)) seg.speaker := by
        simp [find_closest_speaker, closestLoop, ltInf]
      rcases closestLoop_some_spec t rest (segDist t seg) seg.speaker with
        ⟨hall, heq⟩ | ⟨i, h, heq, hlt, hmin, hstrict⟩
      · refine ⟨0, by simp, ?_, ?_, by simp⟩
        · rw [hstep, heq]
          rfl
        · intro s hs
          rcases List.mem_cons.1 hs with rfl | hs
          · exact le_refl _
          · exact hall s hs
      · refine ⟨i + 1, by simpa using Nat.succ_lt_succ h, ?_, ?_, ?_⟩
        · rw [hstep, heq]
          rfl
        · intro s hs
          rcases List.mem_cons.1 hs with rfl | hs
          · exact le_of_lt hlt
          · exact hmin s hs
        · intro s hs
          rw [List.take_succ_cons] at hs
          rcases List.mem_cons.1 hs with rfl | hs
          · exact hlt
          · exact hstrict s hs
  · intro w segs hne hf
    have hne' : ¬segs.isEmpty := by
      cases segs with
      | nil => exact absurd rfl hne
      | cons a l => simp
    simp [assign_speakers_to_words, hne', hf]

/-- Witness for C5 at the spec's gap example: segments `[0,1]→A, [5,6]→B`,
word centered at 3 (equidistant) resolves to the first in list order, A. -/
theorem nearest_boundary_fallback_witness :
    assign_speakers_to_words [(⟨"w", 2, 4⟩ : WordTimestamp)]
        [(⟨0, 1, "A"⟩ : SpeakerSegment), ⟨5, 6, "B"⟩] =
      [⟨"w", 2, 4, "A"⟩] :=
  (nearest_boundary_fallback.2 ⟨"w", 2, 4⟩ [⟨0, 1, "A"⟩, ⟨5, 6, "B"⟩]
    (by simp) (by decide)).trans (by decide)

lemma find_speaker_at_time_mem (t : ℚ) :
    ∀ (segs : List SpeakerSegment) (s : String),
      find_speaker_at_time t segs = some s →
      s ∈ segs.map SpeakerSegment.speaker := by
  intro segs
  induction segs with
  | nil => intro s h; simp [find_speaker_at_time] at h
  | cons seg rest ih =>
    intro s h
    rw [find_speaker_at_time] at h
    split at h
    · simp at h
      simp [h]
    · simpa using Or.inr (by simpa using ih s h)

lemma find_closest_speaker_mem (t : ℚ) (segs : List SpeakerSegment)
    (hne : segs ≠ []) :
    find_closest_speaker t segs ∈ segs.map SpeakerSegment.speaker := by
  cases segs with
  | nil => exact absurd rfl hne
  | cons seg rest =>
    have hstep : find_closest_speaker t (seg :: rest) =
        closestLoop t rest (some (segDist t seg)) seg.speaker := by
      simp [find_closest_speaker, closestLoop, ltInf]
    rcases closestLoop_some_spec t rest (segDist t seg) seg.speaker with
      ⟨_, heq⟩ | ⟨i, h, heq, _, _, _⟩
    · rw [hstep, heq]
      simp
    · rw [hstep, heq]
      exact List.mem_map_of_mem SpeakerSegment.speaker
        (List.mem_cons_of_mem seg (List.get_mem rest i h))

/-- **C10.** With a non-empty segment list, every speaker label assigned by
`assign_speakers_to_words` is the speaker field of some input segment; in
particular the fallback default "Unknown" is unreachable, so it never
appears in the output unless a segment itself carries that label. -/
theorem assigned_speakers_from_segments :
    (∀ (words : List WordTimestamp) (segs : List SpeakerSegment),
      segs ≠ [] →
      ∀ x ∈ assign_speakers_to_words words segs,
        x.speaker ∈ segs.map SpeakerSegment.speaker) ∧
    (∀ (words : List WordTimestamp) (segs : List SpeakerSegment),
      segs ≠ [] →
      "Unknown" ∉ segs.map SpeakerSegment.speaker →
      ∀ x ∈ assign_speakers_to_words words segs, x.speaker ≠ "Unknown") := by
  have main : ∀ (words : List WordTimestamp) (segs : List SpeakerSegment),
      segs ≠ [] →
      ∀ x ∈ assign_speakers_to_words words segs,
        x.speaker ∈ segs.map SpeakerSegment.speaker := by
    intro words segs hne x hx
    have hne' : ¬segs.isEmpty := by
      cases segs with
      | nil => exact absurd rfl hne
      | cons a l => simp
    rw [assign_speakers_to_words, if_neg hne'] at hx
    rcases List.mem_map.1 hx with ⟨w, _, rfl⟩
    simp only
    rcases hcase : find_speaker_at_time (get_word_center w) segs with _ | s
    · simp only [hcase]
      exact find_closest_speaker_mem (get_word_center w) segs hne
    · simp only [hcase]
      exact find_speaker_at_time_mem (get_word_center w) segs s hcase
  refine ⟨main, ?_⟩
  intro words segs hne hUnk x hx heq
  exact hUnk (heq ▸ main words segs hne x hx)

/-- Witness for C10: the assigned label of a concrete word is the speaker
of a concrete input segment. -/
theorem assigned_speakers_from_segments_witness :
    (⟨"w", 2, 4, "A"⟩ : WordWithSpeaker).speaker ∈
      ([(⟨0, 5, "A"⟩ : SpeakerSegment)].map SpeakerSegment.speaker) :=
  assigned_speakers_from_segments.1 [⟨"w", 2, 4⟩] [⟨0, 5, "A"⟩] (by simp)
    ⟨"w", 2, 4, "A"⟩ (by decide)

lemma chain'_cons_of_all {α : Type} {R : α → α → Prop} {a : α}
    {l : List α} (hl : List.Chain' R l) (h : ∀ b ∈ l, R a b) :
    List.Chain' R (a :: l) := by
  cases l with
  | nil => simp
  | cons b t => exact List.chain'_cons.2 ⟨h b (by simp), hl⟩

lemma reconstructLoop_monotone (rest : List WordWithSpeaker) :
    ∀ prev sp st curWords,
      List.Chain' (fun a b => a.start ≤ b.start) (prev :: rest) →
      (∀ w ∈ prev :: rest, w.start ≤ w.«end») →
      st ≤ prev.start →
      List.Chain' (fun s t => s.start ≤ t.start)
        (reconstructLoop prev rest sp st prev.«end» curWords) ∧
      ∀ seg ∈ reconstructLoop prev rest sp st prev.«end» curWords,
        st ≤ seg.start ∧ seg.start ≤ seg.«end» := by
  induction rest with
  | nil =>
    intro prev sp st curWords _ hse hst
    constructor
    · unfold reconstructLoop
      split <;> simp
    · intro seg hseg
      unfold reconstructLoop at hseg
      split at hseg
      · simp at hseg
      · simp at hseg
        subst hseg
        exact ⟨le_refl st, le_trans hst (hse prev (by simp))⟩
  | cons w rest2 ih =>
    intro prev sp st curWords hchain hse hst
    have hpw : prev.start ≤ w.start := (List.chain'_cons.1 hchain).1
    have hchain2 : List.Chain' (fun a b => a.start ≤ b.start) (w :: rest2) :=
      (List.chain'_cons.1 hchain).2
    have hse2 : ∀ v ∈ w :: rest2, v.start ≤ v.«end» := fun v hv =>
      hse v (List.mem_cons_of_mem prev hv)
    simp only [reconstructLoop]
    split
    · have hrec := ih w w.speaker w.start [w.word] hchain2 hse2 (le_refl _)
      constructor
      · refine chain'_cons_of_all hrec.1 ?_
        intro seg hseg
        calc st ≤ prev.start := hst
          _ ≤ w.start := hpw
          _ ≤ seg.start := (hrec.2 seg hseg).1
      · intro seg hseg
        rcases List.mem_cons.1 hseg with rfl | hseg
        · exact ⟨le_refl st, le_trans hst (hse prev (by simp))⟩
        · rcases hrec.2 seg hseg with ⟨h1, h2⟩
          exact ⟨le_trans (le_trans hst hpw) h1, h2⟩
    · exact ih w sp st (curWords ++ [w.word]) hchain2 hse2
        (le_trans hst hpw)

/-- **C7.** For input words in non-decreasing start order with
`start ≤ end`, the reconstructed segments have non-decreasing start times
and every segment satisfies `end ≥ start`. -/
theorem reconstruct_monotone (ws : List WordWithSpeaker)
    (hchain : List.Chain' (fun a b => a.start ≤ b.start) ws)
    (hse : ∀ w ∈ ws, w.start ≤ w.«end») :
    List.Chain' (fun s t => s.start ≤ t.start) (reconstruct_segments ws) ∧
    ∀ seg ∈ reconstruct_segments ws, seg.start ≤ seg.«end» := by
  cases ws with
  | nil => simp [reconstruct_segments]
  | cons w rest =>
    have h := reconstructLoop_monotone rest w w.speaker w.start [w.word]
      hchain hse (le_refl _)
    exact ⟨h.1, fun seg hseg => (h.2 seg hseg).2⟩

/-- Witness for C7 at a concrete two-speaker input. -/
theorem reconstruct_monotone_witness :
    List.Chain' (fun s t => s.start ≤ t.start)
      (reconstruct_segments
        [(⟨"a", 0, 1, "S"⟩ : WordWithSpeaker), ⟨"b", 3, 4, "T"⟩]) :=
  (reconstruct_monotone [⟨"a", 0, 1, "S"⟩, ⟨"b", 3, 4, "T"⟩]
    (by simp [List.chain'_cons]) (by decide)).1

lemma srtLoop_length (segs : List TranscriptSegment) :
    ∀ k, (srtLoop k segs).length = 4 * segs.length := by
  induction segs with
  | nil => intro k; rfl
  | cons seg rest ih =>
    intro k
    simp [srtLoop, srt_entry, ih (k + 1)]
    omega

lemma srtLoop_getElem (segs : List TranscriptSegment) :
    ∀ k i seg, segs[i]? = some seg →
      (srtLoop k segs)[4 * i]? = some (toString (k + i)) ∧
      (srtLoop k segs)[4 * i + 2]? =
        some ("[" ++ seg.speaker ++ "] " ++ seg.text) := by
  induction segs with
  | nil => intro k i seg h; simp at h
  | cons s rest ih =>
    intro k i seg h
    cases i with
    | zero =>
      simp at h
      subst h
      constructor <;> rfl
    | succ i =>
      simp only [List.getElem?_cons_succ] at h
      have h4 : (srt_entry k s).length = 4 := rfl
      have e1 : 4 * (i + 1) = 4 + 4 * i := by omega
      have e2 : 4 * (i + 1) + 2 = 4 + (4 * i + 2) := by omega
      rcases ih (k + 1) i seg h with ⟨ih1, ih2⟩
      constructor
      · rw [srtLoop, e1]
        rw [List.getElem?_append_right (by omega : (srt_entry k s).length ≤ 4 + 4 * i)]
        rw [h4]
        simpa [Nat.add_comm, Nat.add_assoc, Nat.add_left_comm] using ih1
      · rw [srtLoop, e2]
        rw [List.getElem?_append_right (by omega :
          (srt_entry k s).length ≤ 4 + (4 * i + 2))]
        rw [h4]
        simpa using ih2

/-- **C9.** The formatters are total and neither lose nor reorder segments:
the subtitle `lines` list holds exactly four lines per segment with the
ordinal lines numbered consecutively from 1 in segment order and the
content line of the i-th entry taken from the i-th segment; the plain
output holds one line per segment in segment order; and the empty segment
list yields empty text in both formats. -/
theorem formatters_preserve_segments :
    (∀ segs : List TranscriptSegment,
      (generate_srt_lines segs).length = 4 * segs.length ∧
      (generate_txt_lines segs).length = segs.length) ∧
    (∀ (segs : List TranscriptSegment) (i : ℕ) (seg : TranscriptSegment),
      segs[i]? = some seg →
      (generate_srt_lines segs)[4 * i]? = some (toString (i + 1)) ∧
      (generate_srt_lines segs)[4 * i + 2]? =
        some ("[" ++ seg.speaker ++ "] " ++ seg.text) ∧
      (generate_txt_lines segs)[i]? = some (txt_line seg)) ∧
    generate_txt_text [] = "" ∧
    generate_srt_text [] = "" := by
  refine ⟨?_, ?_, rfl, rfl⟩
  · intro segs
    exact ⟨srtLoop_length segs 1, by simp [generate_txt_lines]⟩
  · intro segs i seg h
    rcases srtLoop_getElem segs 1 i seg h with ⟨h1, h2⟩
    refine ⟨?_, h2, ?_⟩
    · rw [generate_srt_lines, h1, Nat.add_comm]
    · simp [generate_txt_lines, List.getElem?_map, h]

/-- Witness for C9 at a concrete two-segment list. -/
theorem formatters_preserve_segments_witness :
    (generate_srt_lines
      [(⟨0, 1, "A", "x"⟩ : TranscriptSegment), ⟨2, 3, "B", "y"⟩]).length = 8 ∧
    (generate_srt_lines
      [(⟨0, 1, "A", "x"⟩ : TranscriptSegment), ⟨2, 3, "B", "y"⟩])[4]? =
      some "2" ∧
    (generate_srt_lines
      [(⟨0, 1, "A", "x"⟩ : TranscriptSegment), ⟨2, 3, "B", "y"⟩])[6]? =
      some "[B] y" :=
  ⟨(formatters_preserve_segments.1
      [⟨0, 1, "A", "x"⟩, ⟨2, 3, "B", "y"⟩]).1.trans (by decide),
   ((formatters_preserve_segments.2.1
      [⟨0, 1, "A", "x"⟩, ⟨2, 3, "B", "y"⟩] 1 ⟨2, 3, "B", "y"⟩ (by decide)).1).trans
     (by decide),
   (formatters_preserve_segments.2.1
      [⟨0, 1, "A", "x"⟩, ⟨2, 3, "B", "y"⟩] 1 ⟨2, 3, "B", "y"⟩ (by decide)).2.1⟩

lemma pyMod_nonneg (a b : ℚ) (hb : 0 < b) : 0 ≤ pyMod a b := by
  rw [pyMod, sub_nonneg]
  calc b * (⌊a / b⌋ : ℚ) ≤ b * (a / b) :=
        mul_le_mul_of_nonneg_left (Int.floor_le _) (le_of_lt hb)
    _ = a := by field_simp

lemma pyMod_lt (a b : ℚ) (hb : 0 < b) : pyMod a b < b := by
  rw [pyMod, sub_lt_iff_lt_add]
  calc a = b * (a / b) := by field_simp
    _ < b * ((⌊a / b⌋ : ℚ) + 1) :=
        mul_lt_mul_of_pos_left (Int.lt_floor_add_one (a / b)) hb
    _ = b + b * ⌊a / b⌋ := by ring

lemma pyMod_sub_mul_int (a b : ℚ) (k : ℤ) (hb : b ≠ 0) :
    pyMod (a - b * k) b = pyMod a b := by
  rw [pyMod, pyMod]
  have hq : (a - b * k) / b = a / b - k := by
    field_simp
  rw [hq, Int.floor_sub_int]
  push_cast
  ring

lemma pyInt_of_nonneg (q : ℚ) (h : 0 ≤ q) : pyInt q = ⌊q⌋ :=
  if_pos h

lemma pyMod_one_eq (s : ℚ) : pyMod s 1 = s - ⌊s⌋ := by
  rw [pyMod, div_one, one_mul]

/-- **C8 (amended).** Timestamp formatting decomposes the input by integer
division into `HH:MM:SS` with the fractional part discarded (the three
displayed integers form the exact base-3600/60 decomposition of `⌊s⌋`), and
the subtitle variant appends `milliseconds = ⌊(s mod 1) * 1000⌋`; at the
double the program stores for the literal 3661.234 this formats as
"01:01:01" plainly and "01:01:01,233" in the subtitle format: the stored
double lies slightly below the decimal value, so the milliseconds floor to
233, not 234. -/
theorem timestamp_formatting :
    (∀ s : ℚ, 0 ≤ s →
      0 ≤ ⌊s / 3600⌋ ∧
      0 ≤ ⌊pyMod s 3600 / 60⌋ ∧ ⌊pyMod s 3600 / 60⌋ < 60 ∧
      0 ≤ ⌊pyMod s 60⌋ ∧ ⌊pyMod s 60⌋ < 60 ∧
      ((⌊s / 3600⌋ * 3600 + ⌊pyMod s 3600 / 60⌋ * 60 + ⌊pyMod s 60⌋ : ℤ) : ℚ)
        ≤ s ∧
      s < ((⌊s / 3600⌋ * 3600 + ⌊pyMod s 3600 / 60⌋ * 60 + ⌊pyMod s 60⌋ : ℤ) :
        ℚ) + 1 ∧
      format_timestamp_txt s =
        pad2 ⌊s / 3600⌋ ++ ":" ++ pad2 ⌊pyMod s 3600 / 60⌋ ++ ":" ++
          pad2 ⌊pyMod s 60⌋ ∧
      format_timestamp_srt s =
        format_timestamp_txt s ++ "," ++ pad3 ⌊(s - ⌊s⌋) * 1000⌋) ∧
    format_timestamp_txt double_3661_234 = "01:01:01" ∧
    format_timestamp_srt double_3661_234 = "01:01:01,233" := by
  refine ⟨?_, by decide, by decide⟩
  intro s hs
  have h3600 : (0 : ℚ) < 3600 := by norm_num
  have h60 : (0 : ℚ) < 60 := by norm_num
  have hr1_nonneg : 0 ≤ pyMod s 3600 := pyMod_nonneg s 3600 h3600
  have hr1_lt : pyMod s 3600 < 3600 := pyMod_lt s 3600 h3600
  have hr2_nonneg : 0 ≤ pyMod s 60 := pyMod_nonneg s 60 h60
  have hr2_lt : pyMod s 60 < 60 := pyMod_lt s 60 h60
  have hh_nonneg : 0 ≤ ⌊s / 3600⌋ :=
    Int.floor_nonneg.2 (div_nonneg hs (le_of_lt h3600))
  have hm_nonneg : 0 ≤ ⌊pyMod s 3600 / 60⌋ :=
    Int.floor_nonneg.2 (div_nonneg hr1_nonneg (le_of_lt h60))
  have hm_lt : ⌊pyMod s 3600 / 60⌋ < 60 := by
    rw [Int.floor_lt]
    rw [div_lt_iff₀ h60]
    push_cast
    linarith
  have hsec_nonneg : 0 ≤ ⌊pyMod s 60⌋ := Int.floor_nonneg.2 hr2_nonneg
  have hsec_lt : ⌊pyMod s 60⌋ < 60 := by
    rw [Int.floor_lt]
    push_cast
    exact hr2_lt
  -- the inner remainder of the decomposition agrees with `pyMod s 60`
  have hmod : pyMod (pyMod s 3600) 60 = pyMod s 60 := by
    have he : pyMod s 3600 = s - 60 * ((60 * ⌊s / 3600⌋ : ℤ) : ℚ) := by
      rw [pyMod]
      push_cast
      ring
    rw [he, pyMod_sub_mul_int s 60 (60 * ⌊s / 3600⌋) (by norm_num)]
  have hs_eq1 : s = 3600 * (⌊s / 3600⌋ : ℚ) + pyMod s 3600 := by
    rw [pyMod]
    ring
  have hr1_eq : pyMod s 3600 =
      60 * (⌊pyMod s 3600 / 60⌋ : ℚ) + pyMod s 60 := by
    rw [← hmod]
    generalize pyMod s 3600 = r1
    rw [pyMod]
    ring
  have hsec_le : (⌊pyMod s 60⌋ : ℚ) ≤ pyMod s 60 := Int.floor_le _
  have hsec_gt : pyMod s 60 < (⌊pyMod s 60⌋ : ℚ) + 1 :=
    Int.lt_floor_add_one _
  refine ⟨hh_nonneg, hm_nonneg, hm_lt, hsec_nonneg, hsec_lt, ?_, ?_, ?_, ?_⟩
  · push_cast
    linarith
  · push_cast
    linarith
  · simp only [format_timestamp_txt]
    rw [pyInt_of_nonneg _ hr2_nonneg]
  · simp only [format_timestamp_srt, format_timestamp_txt]
    rw [pyInt_of_nonneg _ hr2_nonneg,
      pyInt_of_nonneg _ (mul_nonneg (pyMod_nonneg s 1 one_pos) (by norm_num)),
      pyMod_one_eq]

/-- Witness for the amended C8 at the stored double for 3661.234. -/
theorem timestamp_formatting_witness :
    format_timestamp_srt double_3661_234 =
      format_timestamp_txt double_3661_234 ++ "," ++
        pad3 ⌊(double_3661_234 - ⌊double_3661_234⌋) * 1000⌋ :=
  (timestamp_formatting.1 double_3661_234 (by decide)).2.2.2.2.2.2.2.2

/-- **C8 (counterexample).** At the program's actual input for the float
literal 3661.234 — the nearest IEEE-754 double, exactly
`8051138710017671 / 2 ^ 41` — the subtitle formatter yields
"01:01:01,233", not the "01:01:01,234" the claim asserts. -/
theorem timestamp_formatting_counterexample :
    format_timestamp_srt double_3661_234 = "01:01:01,233" ∧
    format_timestamp_srt double_3661_234 ≠ "01:01:01,234" :=
  ⟨by decide, by decide⟩
